import Mathlib

/-!
Formal model of the music-recommendation debiasing core.

Shallow embedding of `src/ml/debiasing.py`, `src/ml/models.py` and
`src/ml/evaluation.py`.  Python dict candidates become a `Track` structure
whose optional fields mirror `dict.get` defaults; float arithmetic is
modelled over `ℚ`; the possibly non-terminating fairness selection loop is
modelled with explicit fuel (`none` = the loop has not terminated within
the given fuel); Python's stable `list.sort(key=…, reverse=True)` is
modelled by `stableSortDesc`, the unique stable descending sort.
-/

namespace MusicRec

/-- Model of a candidate track dict.  Fields read with `dict.get(k, d)` in the
Python source are `Option`s; the documented defaults are applied at each read
site (e.g. `popularity.getD 50`).  `artists` holds the artist objects' `id`
fields; a missing `artists` key (Python default `[{}]`) is modelled as
`[none]`, and the first element is the primary artist.  Fields after
`scores_novelty` are the derived score fields the pipeline stages write. -/
structure Track where
  id : Option String := none
  artists : List (Option String) := [none]
  popularity : Option ℚ := none
  recommendation_score : Option ℚ := none
  genres : List String := []
  release_date : String := ""
  scores_novelty : Option ℚ := none
  normalized_popularity : Option ℚ := none
  popularity_bias_reduction : Option ℚ := none
  popularity_penalty : Option ℚ := none
  popularity_adjusted_score : Option ℚ := none
  popularity_aware_score : Option ℚ := none
  diversity_boost : Option ℚ := none
  diversity_adjusted_score : Option ℚ := none
  genre_diversity_boost : Option ℚ := none
  temporal_diversity_boost : Option ℚ := none
  novelty_score : Option ℚ := none
  novelty_adjusted_score : Option ℚ := none
  artist_novelty_boost : Option ℚ := none
  debiased_score : Option ℚ := none
  deriving DecidableEq, Repr

/-- Primary-artist id: `track.get('artists', [{}])[0].get('id', 'unknown')`. -/
def primaryArtist (t : Track) : String :=
  (t.artists.headD none).getD "unknown"

/-- Recommendation-score read `track.get('recommendation_score', 0)`. -/
def recKey (t : Track) : ℚ :=
  t.recommendation_score.getD 0

/-- Debiased-score read `track.get('debiased_score', 0)`. -/
def debiasedKey (t : Track) : ℚ :=
  t.debiased_score.getD 0

section StableSort

variable {α : Type}

/-- Insertion step of the stable descending sort: `x` (earlier in the input)
is placed before the first element whose key it matches or exceeds. -/
def insertDesc (key : α → ℚ) (x : α) : List α → List α
  | [] => [x]
  | y :: ys => if key y ≤ key x then x :: y :: ys else y :: insertDesc key x ys

/-- Model of Python's stable `list.sort(key=key, reverse=True)` /
`sorted(key=key, reverse=True)`: the unique descending sort in which
equal-key elements keep their relative input order. -/
def stableSortDesc (key : α → ℚ) : List α → List α
  | [] => []
  | x :: xs => insertDesc key x (stableSortDesc key xs)

theorem perm_insertDesc (key : α → ℚ) (x : α) (l : List α) :
    (insertDesc key x l).Perm (x :: l) := by
  induction l with
  | nil => simp [insertDesc]
  | cons y ys ih =>
    by_cases h : key y ≤ key x
    · simp [insertDesc, h]
    · simp only [insertDesc, if_neg h]
      exact (ih.cons y).trans (List.Perm.swap x y ys)

theorem perm_stableSortDesc (key : α → ℚ) (l : List α) :
    (stableSortDesc key l).Perm l := by
  induction l with
  | nil => simp [stableSortDesc]
  | cons x xs ih =>
    exact (perm_insertDesc key x (stableSortDesc key xs)).trans (ih.cons x)

theorem mem_insertDesc {key : α → ℚ} {x z : α} {l : List α} :
    z ∈ insertDesc key x l ↔ z = x ∨ z ∈ l := by
  constructor
  · intro h
    have := (perm_insertDesc key x l).mem_iff.mp h
    simpa using this
  · intro h
    apply (perm_insertDesc key x l).mem_iff.mpr
    simpa using h

theorem length_stableSortDesc (key : α → ℚ) (l : List α) :
    (stableSortDesc key l).length = l.length :=
  (perm_stableSortDesc key l).length_eq

theorem sorted_insertDesc {key : α → ℚ} {x : α} {l : List α}
    (hl : l.Pairwise (fun a b => key b ≤ key a)) :
    (insertDesc key x l).Pairwise (fun a b => key b ≤ key a) := by
  induction l with
  | nil => simp [insertDesc]
  | cons y ys ih =>
    rcases List.pairwise_cons.mp hl with ⟨hy, hys⟩
    by_cases h : key y ≤ key x
    · simp only [insertDesc, if_pos h]
      refine List.pairwise_cons.mpr ⟨?_, hl⟩
      intro z hz
      rcases List.mem_cons.mp hz with hz | hz
      · subst hz; exact h
      · exact le_trans (hy z hz) h
    · simp only [insertDesc, if_neg h]
      refine List.pairwise_cons.mpr ⟨?_, ih hys⟩
      intro z hz
      rcases mem_insertDesc.mp hz with hz | hz
      · subst hz; exact le_of_lt (lt_of_not_le h)
      · exact hy z hz

theorem sorted_stableSortDesc (key : α → ℚ) (l : List α) :
    (stableSortDesc key l).Pairwise (fun a b => key b ≤ key a) := by
  induction l with
  | nil => simp [stableSortDesc]
  | cons x xs ih => exact sorted_insertDesc ih

theorem filter_insertDesc_eq (key : α → ℚ) (c : ℚ) (x : α) (l : List α)
    (hx : key x = c) :
    (insertDesc key x l).filter (fun t => decide (key t = c)) =
      x :: l.filter (fun t => decide (key t = c)) := by
  induction l with
  | nil => simp [insertDesc, hx]
  | cons y ys ih =>
    by_cases h : key y ≤ key x
    · simp only [insertDesc, if_pos h]
      simp [List.filter_cons, hx]
    · have hy : ¬ key y = c := by
        intro hc
        exact h (by rw [hc, ← hx])
      simp only [insertDesc, if_neg h]
      simp [List.filter_cons, hy, ih]

theorem filter_insertDesc_ne (key : α → ℚ) (c : ℚ) (x : α) (l : List α)
    (hx : ¬ key x = c) :
    (insertDesc key x l).filter (fun t => decide (key t = c)) =
      l.filter (fun t => decide (key t = c)) := by
  induction l with
  | nil => simp [insertDesc, hx]
  | cons y ys ih =>
    by_cases h : key y ≤ key x
    · simp only [insertDesc, if_pos h]
      simp [List.filter_cons, hx]
    · simp only [insertDesc, if_neg h]
      by_cases hy : key y = c
      · simp [List.filter_cons, hy, ih]
      · simp [List.filter_cons, hy, ih]

/-- Stability of the sort: the elements at any fixed key value keep their
relative input order. -/
theorem filter_stableSortDesc (key : α → ℚ) (c : ℚ) (l : List α) :
    (stableSortDesc key l).filter (fun t => decide (key t = c)) =
      l.filter (fun t => decide (key t = c)) := by
  induction l with
  | nil => simp [stableSortDesc]
  | cons x xs ih =>
    by_cases hx : key x = c
    · rw [stableSortDesc, filter_insertDesc_eq key c x _ hx, ih]
      simp [hx]
    · rw [stableSortDesc, filter_insertDesc_ne key c x _ hx, ih]
      simp [hx]

end StableSort

/-! Pipeline stage functions, `src/ml/debiasing.py`. -/

/-- Embeds `PopularityDebiasing.apply_popularity_normalization` (debiasing.py:27-49).
The float power `(popularity/100) ** alpha` with the default `alpha = 0.7` is
an irrational-valued operation; it is abstracted as the function parameter
`powA` (no claim depends on its values, only on the list structure). -/
def apply_popularity_normalization (powA : ℚ → ℚ) (tracks : List Track) : List Track :=
  tracks.map fun t =>
    { t with
      normalized_popularity := some (powA ((t.popularity.getD 50) / 100))
      popularity_bias_reduction := some (1 - powA ((t.popularity.getD 50) / 100)) }

/-- Per-track body of `PopularityDebiasing.apply_popularity_penalty`
(debiasing.py:51-72). -/
def penaltyTrack (penalty_strength : ℚ) (t : Track) : Track :=
  let p := (t.popularity.getD 50) / 100
  let penalty : ℚ :=
    if p > 4/5 then penalty_strength * (p - 4/5) * 5
    else if p > 3/5 then penalty_strength * (p - 3/5) * (5/2)
    else 0
  { t with
    popularity_penalty := some penalty
    popularity_adjusted_score := some ((t.recommendation_score.getD 0) * (1 - penalty)) }

/-- Embeds `PopularityDebiasing.apply_popularity_penalty` (debiasing.py:51-72),
default `penalty_strength = 0.3`. -/
def apply_popularity_penalty (penalty_strength : ℚ) (tracks : List Track) : List Track :=
  tracks.map (penaltyTrack penalty_strength)

/-- Embeds `PopularityDebiasing.apply_popularity_aware_ranking` (debiasing.py:74-92). -/
def apply_popularity_aware_ranking (tracks : List Track) : List Track :=
  tracks.map fun t =>
    let p := (t.popularity.getD 50) / 100
    let base := t.recommendation_score.getD 0
    let popularity_weight := 1 - p * (1/2)
    { t with popularity_aware_score := some (base * (1 + popularity_weight * (3/10))) }

/-- Number of tracks in the set sharing a track's primary artist (the
`len(artist_tracks[artist_id])` count in debiasing.py:105-116, and the
`artist_counts` count in debiasing.py:237-246). -/
def artistCountIn (tracks : List Track) (t : Track) : Nat :=
  tracks.countP fun u => decide (primaryArtist u = primaryArtist t)

/-- Embeds `DiversityPromotion.apply_diversity_boost` (debiasing.py:102-130),
default `diversity_weight = 0.4`. -/
def apply_diversity_boost (tracks : List Track) : List Track :=
  tracks.map fun t =>
    let boost : ℚ := 1 / (max (artistCountIn tracks t) 1 : ℚ)
    let base := t.recommendation_score.getD 0
    { t with
      diversity_boost := some boost
      diversity_adjusted_score := some (base * (1 + boost * (2/5))) }

/-- Python `any(g in other_genres for g in track_genre)` (debiasing.py:149). -/
def genreShares (a b : List String) : Bool :=
  a.any fun g => b.contains g

/-- Embeds `DiversityPromotion.apply_genre_diversity` (debiasing.py:132-160). -/
def apply_genre_diversity (tracks : List Track) : List Track :=
  let gs := tracks.map Track.genres
  tracks.mapIdx fun i t =>
    let overlap :=
      ((List.range tracks.length).filter fun j =>
        decide (j ≠ i) && genreShares (gs.getD i []) (gs.getD j [])).length
    { t with genre_diversity_boost := some (1 / (max (overlap + 1) 1 : ℚ)) }

/-- Release-year extraction `int(release_date[:4])` with the code's fallback
to 2020 for an empty or unparsable date (debiasing.py:166-176); Python's
`int` on the 4-character prefix is modelled by `String.toInt?`. -/
def parseYear (release_date : String) : Int :=
  if release_date = "" then 2020
  else
    match (release_date.take 4).toInt? with
    | some y => y
    | none => 2020

/-- Embeds `DiversityPromotion.apply_temporal_diversity` (debiasing.py:162-200),
hardcoded `current_year = 2024`. -/
def apply_temporal_diversity (tracks : List Track) : List Track :=
  tracks.map fun t =>
    let years_old : Int := 2024 - parseYear t.release_date
    let boost : ℚ :=
      if years_old > 20 then 13/10
      else if years_old > 10 then 12/10
      else if years_old > 5 then 11/10
      else 1
    { t with temporal_diversity_boost := some boost }

/-- Embeds `calculate_novelty_score` (helpers.py:73-85); `config.NOVELTY_BOOST = 1.5`. -/
def calculate_novelty_score (t : Track) (user_history : List String) : ℚ :=
  let artist_id := (t.artists.headD none).getD ""
  let track_id := t.id.getD ""
  let artist_novelty : ℚ := if artist_id ∈ user_history then 3/10 else 1
  let track_novelty : ℚ := if track_id ∈ user_history then 1/10 else 1
  (artist_novelty * (7/10) + track_novelty * (3/10)) * (3/2)

/-- Embeds `NoveltyPromotion.apply_novelty_boost` (debiasing.py:214-232), default
`novelty_weight = 0.3`. -/
def apply_novelty_boost (user_history : List String) (tracks : List Track) : List Track :=
  tracks.map fun t =>
    let nov := calculate_novelty_score t user_history
    let base := t.recommendation_score.getD 0
    { t with
      novelty_score := some nov
      novelty_adjusted_score := some (base * (1 + nov * (3/10))) }

/-- Embeds `NoveltyPromotion.apply_artist_novelty` (debiasing.py:234-256). -/
def apply_artist_novelty (tracks : List Track) : List Track :=
  tracks.map fun t =>
    { t with artist_novelty_boost := some (1 / (max (artistCountIn tracks t) 1 : ℚ)) }

/-- Fused score of the combiner loop (debiasing.py:385-391): each component
falls back to `recommendation_score` (itself defaulting to 0) when absent. -/
def combinerScore (t : Track) : ℚ :=
  (t.popularity_adjusted_score.getD (t.recommendation_score.getD 0)) * (3/10) +
  (t.diversity_adjusted_score.getD (t.recommendation_score.getD 0)) * (3/10) +
  (t.novelty_adjusted_score.getD (t.recommendation_score.getD 0)) * (2/5)

/-- Field write of the combiner loop (debiasing.py:385-391). -/
def setDebiased (t : Track) : Track :=
  { t with debiased_score := some (combinerScore t) }

/-- Score-combiner portion of `DebiasingPipeline.apply_full_debiasing`
(debiasing.py:384-396): write `debiased_score` on every track, then stable
sort descending by it. -/
def scoreCombiner (tracks : List Track) : List Track :=
  stableSortDesc debiasedKey (tracks.map setDebiased)

/-- Embeds `DebiasingPipeline.apply_full_debiasing` (debiasing.py:360-400) with the
constructor-default stage parameters; `powA` abstracts the float power used
by the normalization stage. -/
def apply_full_debiasing (powA : ℚ → ℚ) (user_history : List String)
    (tracks : List Track) : List Track :=
  scoreCombiner
    (apply_artist_novelty
      (apply_novelty_boost user_history
        (apply_temporal_diversity
          (apply_genre_diversity
            (apply_diversity_boost
              (apply_popularity_aware_ranking
                (apply_popularity_penalty (3/10)
                  (apply_popularity_normalization powA tracks))))))))

/-- Python `int(q)` truncation toward zero, on `ℚ`. -/
def truncQ (q : ℚ) : Int :=
  if 0 ≤ q then ⌊q⌋ else -⌊-q⌋

/-- Embeds `FairnessConstraints.apply_representation_quota` (debiasing.py:317-348).
`quota_percentages` is the dict's key/value pairs in iteration order. -/
def apply_representation_quota (quota_percentages : List (String × ℚ))
    (tracks : List Track) : List Track :=
  let mainstream := tracks.filter fun t => decide ((t.popularity.getD 50) > 70)
  let indie := tracks.filter fun t =>
    decide (¬ (t.popularity.getD 50) > 70) && decide ((t.popularity.getD 50) < 30)
  let vintage := tracks.filter fun t =>
    decide (¬ (t.popularity.getD 50) > 70) && decide (¬ (t.popularity.getD 50) < 30)
  let category : String → List Track := fun c =>
    if c = "mainstream" then mainstream
    else if c = "indie" then indie
    else if c = "vintage" then vintage
    else []
  quota_percentages.foldl
    (fun selected cp =>
      let num_needed := (truncQ ((tracks.length : ℚ) * cp.2)).toNat
      selected ++ (stableSortDesc recKey (category cp.1)).take num_needed)
    []

/-! Fairness allocator, `FairnessConstraints.apply_fairness_constraints`
(debiasing.py:266-315).  The Python dict `artist_tracks` is an association
list in insertion (first-appearance) order; the loop state carries, per
artist, the remaining (sorted) track list and the `artist_counts` entry. -/

/-- Append a track to its artist's group, creating the group at the end on
first appearance — Python dict insertion-order semantics of the grouping
loop (debiasing.py:270-275). -/
def upsertGroup (a : String) (t : Track) :
    List (String × List Track) → List (String × List Track)
  | [] => [(a, [t])]
  | (b, ts) :: rest =>
    if b = a then (b, ts ++ [t]) :: rest else (b, ts) :: upsertGroup a t rest

/-- Group tracks by primary artist in first-appearance order
(debiasing.py:270-275). -/
def groupByArtist (tracks : List Track) : List (String × List Track) :=
  tracks.foldl (fun g t => upsertGroup (primaryArtist t) t g) []

/-- Loop state: artist id, remaining sorted tracks, `artist_counts` entry. -/
abbrev FairState := List (String × List Track × Nat)

/-- One fold step of the minimum-count scan (debiasing.py:292-299): an artist
is a candidate while its count is under the cap, and replaces the current
best only when its count is strictly smaller. -/
def pickStep (cap : Nat) (acc : Option (String × Nat)) :
    String × List Track × Nat → Option (String × Nat)
  | (a, _, c) =>
    match acc with
    | none => if c < cap then some (a, c) else acc
    | some (b, bc) => if c < cap ∧ c < bc then some (a, c) else some (b, bc)

/-- The `selected_artist` scan of one loop iteration (debiasing.py:291-299). -/
def pickArtist (cap : Nat) (st : FairState) : Option String :=
  (st.foldl (pickStep cap) none).map Prod.fst

/-- Popping the best remaining track of the selected artist
(debiasing.py:304-309): `none` when the artist's list is already empty, in
which case the Python iteration changes nothing. -/
def popArtist (a : String) : FairState → Option (Track × FairState)
  | [] => none
  | (b, ts, c) :: rest =>
    if b = a then
      match ts with
      | [] => none
      | t :: ts2 => some (t, (b, ts2, c + 1) :: rest)
    else
      (popArtist a rest).map fun p => (p.1, (b, ts, c) :: p.2)

/-- The `while len(selected_tracks) < max_recommendations` loop
(debiasing.py:290-309), with explicit fuel: `none` means the loop has not
reached a terminal state within `fuel` iterations. -/
def fairLoop (cap M : Nat) : Nat → FairState → List Track → Option (List Track)
  | 0, _, _ => none
  | fuel + 1, st, selected =>
    if M ≤ selected.length then some selected
    else
      match pickArtist cap st with
      | none => some selected
      | some a =>
        match popArtist a st with
        | some (t, st2) => fairLoop cap M fuel st2 (selected ++ [t])
        | none => fairLoop cap M fuel st selected

/-- Embeds `FairnessConstraints.apply_fairness_constraints` (debiasing.py:266-315).
On an empty input the Python body raises `ZeroDivisionError` at
`max_recommendations // num_artists`, which the enclosing handler turns into
`tracks[:max_recommendations]`; that is the `g.length = 0` branch. -/
def apply_fairness_constraints (fuel : Nat) (tracks : List Track)
    (max_recommendations : Nat) : Option (List Track) :=
  let g := groupByArtist tracks
  if g.length = 0 then some (tracks.take max_recommendations)
  else
    fairLoop (max 1 (max_recommendations / g.length)) max_recommendations fuel
      (g.map fun e => (e.1, stableSortDesc recKey e.2, 0)) []

/-! Exploration/exploitation selector, `ExplorationExploitationModel`
(models.py:378-470). -/

/-- Feedback-event dict: `rating` read with default 0.5, `is_exploration`
with default `False` (models.py:450-452). -/
structure Feedback where
  rating : Option ℚ := none
  is_exploration : Bool := false
  deriving DecidableEq, Repr

/-- Selector state (models.py:381-384). -/
structure ExplorationExploitationModel where
  exploration_rate : ℚ := 3/10
  exploration_history : List String := []
  deriving DecidableEq, Repr

/-- Secondary exploration key (models.py:425-434):
`novelty*0.7 + (1 - popularity/100)*0.3` with `novelty` read from
`candidate['scores']['novelty']` (default 0.5) and popularity default 50. -/
def diversityKey (t : Track) : ℚ :=
  (t.scores_novelty.getD (1/2)) * (7/10) + (1 - (t.popularity.getD 50) / 100) * (3/10)

/-- Embeds `ExplorationExploitationModel._select_exploration_candidates`
(models.py:418-441): a pool no larger than the request is returned whole,
otherwise the top `num_select` by the diversity key (stable sort). -/
def select_exploration_candidates (candidates : List Track) (num_select : Nat) :
    List Track :=
  if candidates.length ≤ num_select then candidates
  else (stableSortDesc diversityKey candidates).take num_select

/-- Embeds `ExplorationExploitationModel.select_recommendations` (models.py:386-416).
The trailing in-place `np.random.shuffle` is a permutation of the combined
list; since every claim about this function is order-insensitive, it is
modelled as the identity permutation. -/
def select_recommendations (rate : ℚ) (exploitation_candidates : List Track)
    (exploration_candidates : List Track) (num_recommendations : Nat) : List Track :=
  let num_exploration := (truncQ ((num_recommendations : ℚ) * rate)).toNat
  let num_exploitation := num_recommendations - num_exploration
  (stableSortDesc recKey exploitation_candidates).take num_exploitation ++
    select_exploration_candidates exploration_candidates num_exploration

/-- Ratings of the events flagged `is_exploration` (models.py:449-452). -/
def explorationRatings (user_feedback : List Feedback) : List ℚ :=
  (user_feedback.filter fun f => f.is_exploration).map fun f => f.rating.getD (1/2)

/-- Embeds `ExplorationExploitationModel.update_exploration_rate` (models.py:443-464). -/
def update_exploration_rate (m : ExplorationExploitationModel)
    (user_feedback : List Feedback) : ExplorationExploitationModel :=
  if user_feedback.isEmpty then m
  else
    let es := explorationRatings user_feedback
    if es.isEmpty then m
    else
      let avg := es.sum / es.length
      if avg > 7/10 then
        { m with exploration_rate := min (1/2) (m.exploration_rate + 1/20) }
      else if avg < 3/10 then
        { m with exploration_rate := max (1/10) (m.exploration_rate - 1/20) }
      else m

/-! Satisfaction summary rates, `SatisfactionTracker.get_satisfaction_summary`
(evaluation.py:509-518), on the windowed ratings list. -/

/-- Model of `np.mean` on a list: `none` models the NaN (with warning) that numpy
returns on an empty list. -/
def npMean (l : List ℚ) : Option ℚ :=
  if l.isEmpty then none else some (l.sum / l.length)

/-- The code's `positive_feedback_rate`:
`np.mean([1 for r in ratings if r > 0.7])` (evaluation.py:516). -/
def positive_feedback_rate (ratings : List ℚ) : Option ℚ :=
  npMean ((ratings.filter fun r => decide (r > 7/10)).map fun _ => (1 : ℚ))

/-- The code's `negative_feedback_rate`:
`np.mean([1 for r in ratings if r < 0.3])` (evaluation.py:517). -/
def negative_feedback_rate (ratings : List ℚ) : Option ℚ :=
  npMean ((ratings.filter fun r => decide (r < 3/10)).map fun _ => (1 : ℚ))

/-- The fraction of ratings strictly above 0.7, as the claim reads the
`positive_feedback_rate` field. -/
def claimedPositiveRate (ratings : List ℚ) : ℚ :=
  ((ratings.countP fun r => decide (r > 7/10)) : ℚ) / ratings.length

/-- The fraction of ratings strictly below 0.3, as the claim reads the
`negative_feedback_rate` field. -/
def claimedNegativeRate (ratings : List ℚ) : ℚ :=
  ((ratings.countP fun r => decide (r < 3/10)) : ℚ) / ratings.length

/-! Proof apparatus for the fairness allocator: per-artist read-outs of the
loop state and the loop invariant. -/

/-- Number of items in a list whose primary artist is `a`. -/
def countA (a : String) (l : List Track) : Nat :=
  l.countP fun t => decide (primaryArtist t = a)

/-- The `artist_counts.get(a, 0)` read on the loop state. -/
def lookupCount (a : String) : FairState → Nat
  | [] => 0
  | (b, _, c) :: rest => if b = a then c else lookupCount a rest

/-- The remaining (unconsumed) track list of artist `a` in the loop state. -/
def lookupRemaining (a : String) : FairState → List Track
  | [] => []
  | (b, ts, _) :: rest => if b = a then ts else lookupRemaining a rest

/-- Invariant of the fairness selection loop: counts are capped, counts agree
with the selected list, remaining tracks sit under their own artist, artist
keys are distinct, and per artist the selected items followed by the
remaining items are descending in `recommendation_score`. -/
def FairInv (cap : Nat) (st : FairState) (sel : List Track) : Prop :=
  (∀ e ∈ st, e.2.2 ≤ cap) ∧
  (∀ a, countA a sel = lookupCount a st) ∧
  (∀ e ∈ st, ∀ t ∈ e.2.1, primaryArtist t = e.1) ∧
  (st.map Prod.fst).Nodup ∧
  (∀ a, ((sel.filter fun t => decide (primaryArtist t = a)) ++ lookupRemaining a st).Pairwise
    (fun u v => recKey v ≤ recKey u))

/-- Single-artist, single-track candidate set used to exhibit the fairness
loop's failure to terminate. -/
def c1Track : Track :=
  { artists := [some "a"] }

/-- First candidate of the C3 counterexample: higher `recommendation_score`,
lower `debiased_score`. -/
def c3t1 : Track :=
  { id := some "t1", artists := [some "a"], recommendation_score := some 1,
    debiased_score := some 0 }

/-- Second candidate of the C3 counterexample: lower `recommendation_score`,
higher `debiased_score`. -/
def c3t2 : Track :=
  { id := some "t2", artists := [some "a"], recommendation_score := some 0,
    debiased_score := some 1 }

/-! Claim theorems. -/

theorem foldl_fixed_point {α β : Type} (f : α → β → α) (l : List β) (acc : α)
    (h : ∀ a b, f a b = a) : l.foldl f acc = acc := by
  induction l generalizing acc with
  | nil => rfl
  | cons x xs ih => rw [List.foldl_cons, h, ih]

theorem popArtist_decomp {a : String} {st : FairState} {t : Track} {st2 : FairState}
    (h : popArtist a st = some (t, st2)) :
    ∃ pre ts c post, st = pre ++ (a, t :: ts, c) :: post ∧
      st2 = pre ++ (a, ts, c + 1) :: post ∧ ∀ e ∈ pre, e.1 ≠ a := by
  induction st generalizing st2 with
  | nil => simp [popArtist] at h
  | cons e rest ih =>
    obtain ⟨b, ts0, c0⟩ := e
    by_cases hb : b = a
    · subst hb
      cases ts0 with
      | nil => simp [popArtist] at h
      | cons t0 ts1 =>
        simp only [popArtist, if_pos rfl, Option.some.injEq, Prod.mk.injEq] at h
        obtain ⟨rfl, rfl⟩ := h
        exact ⟨[], ts1, c0, rest, rfl, rfl, by simp⟩
    · simp only [popArtist, if_neg hb] at h
      cases hmap : popArtist a rest with
      | none => rw [hmap] at h; simp at h
      | some p =>
        obtain ⟨t1, rest2⟩ := p
        rw [hmap] at h
        simp only [Option.map_some', Option.some.injEq, Prod.mk.injEq] at h
        obtain ⟨rfl, rfl⟩ := h
        obtain ⟨pre, ts, c, post, e1, e2, e3⟩ := ih hmap
        refine ⟨(b, ts0, c0) :: pre, ts, c, post, by rw [e1]; rfl, by rw [e2]; rfl, ?_⟩
        intro e he
        rcases List.mem_cons.mp he with he | he
        · subst he; exact hb
        · exact e3 e he

theorem foldl_pickStep_spec (cap : Nat) (st : FairState) :
    ∀ (acc : Option (String × Nat)) (a : String) (c : Nat),
      st.foldl (pickStep cap) acc = some (a, c) →
      acc = some (a, c) ∨ ∃ ts, (a, ts, c) ∈ st ∧ c < cap := by
  induction st with
  | nil => intro acc a c h; exact Or.inl h
  | cons e rest ih =>
    intro acc a c h
    rw [List.foldl_cons] at h
    rcases ih _ _ _ h with h2 | ⟨ts, hmem, hc⟩
    · obtain ⟨b, ts0, c0⟩ := e
      cases acc with
      | none =>
        simp only [pickStep] at h2
        by_cases hc0 : c0 < cap
        · rw [if_pos hc0] at h2
          simp only [Option.some.injEq, Prod.mk.injEq] at h2
          obtain ⟨rfl, rfl⟩ := h2
          exact Or.inr ⟨ts0, List.mem_cons_self _ _, hc0⟩
        · rw [if_neg hc0] at h2
          exact absurd h2 (by simp)
      | some p =>
        obtain ⟨b0, bc⟩ := p
        simp only [pickStep] at h2
        by_cases hcond : c0 < cap ∧ c0 < bc
        · rw [if_pos hcond] at h2
          simp only [Option.some.injEq, Prod.mk.injEq] at h2
          obtain ⟨rfl, rfl⟩ := h2
          exact Or.inr ⟨ts0, List.mem_cons_self _ _, hcond.1⟩
        · rw [if_neg hcond] at h2
          exact Or.inl h2
    · exact Or.inr ⟨ts, List.mem_cons_of_mem _ hmem, hc⟩

theorem pickArtist_spec {cap : Nat} {st : FairState} {a : String}
    (h : pickArtist cap st = some a) : ∃ ts c, (a, ts, c) ∈ st ∧ c < cap := by
  unfold pickArtist at h
  cases hf : st.foldl (pickStep cap) none with
  | none => rw [hf] at h; simp at h
  | some p =>
    obtain ⟨a0, c0⟩ := p
    rw [hf] at h
    simp only [Option.map_some', Option.some.injEq] at h
    subst h
    rcases foldl_pickStep_spec cap st none a0 c0 hf with h2 | ⟨ts, hm, hc⟩
    · exact absurd h2 (by simp)
    · exact ⟨ts, c0, hm, hc⟩

theorem lookupCount_append_of_ne (a : String) (pre post : FairState)
    (h : ∀ e ∈ pre, e.1 ≠ a) :
    lookupCount a (pre ++ post) = lookupCount a post := by
  induction pre with
  | nil => rfl
  | cons e rest ih =>
    obtain ⟨b, ts, c⟩ := e
    have hb : b ≠ a := h _ (List.mem_cons_self _ _)
    simp only [List.cons_append, lookupCount, if_neg hb]
    exact ih fun e he => h e (List.mem_cons_of_mem _ he)

theorem lookupRemaining_append_of_ne (a : String) (pre post : FairState)
    (h : ∀ e ∈ pre, e.1 ≠ a) :
    lookupRemaining a (pre ++ post) = lookupRemaining a post := by
  induction pre with
  | nil => rfl
  | cons e rest ih =>
    obtain ⟨b, ts, c⟩ := e
    have hb : b ≠ a := h _ (List.mem_cons_self _ _)
    simp only [List.cons_append, lookupRemaining, if_neg hb]
    exact ih fun e he => h e (List.mem_cons_of_mem _ he)

theorem lookupCount_congr_mid (b a : String) (hba : a ≠ b) (pre post : FairState)
    (x y : List Track × Nat) :
    lookupCount b (pre ++ (a, x) :: post) = lookupCount b (pre ++ (a, y) :: post) := by
  induction pre with
  | nil => simp only [List.nil_append, lookupCount, if_neg hba]
  | cons e rest ih =>
    obtain ⟨k, ts, c⟩ := e
    by_cases hk : k = b
    · simp only [List.cons_append, lookupCount, if_pos hk]
    · simp only [List.cons_append, lookupCount, if_neg hk]
      exact ih

theorem lookupRemaining_congr_mid (b a : String) (hba : a ≠ b) (pre post : FairState)
    (x y : List Track × Nat) :
    lookupRemaining b (pre ++ (a, x) :: post) = lookupRemaining b (pre ++ (a, y) :: post) := by
  induction pre with
  | nil => simp only [List.nil_append, lookupRemaining, if_neg hba]
  | cons e rest ih =>
    obtain ⟨k, ts, c⟩ := e
    by_cases hk : k = b
    · simp only [List.cons_append, lookupRemaining, if_pos hk]
    · simp only [List.cons_append, lookupRemaining, if_neg hk]
      exact ih

theorem lookupCount_le_cap {cap : Nat} {st : FairState}
    (h : ∀ e ∈ st, e.2.2 ≤ cap) (a : String) : lookupCount a st ≤ cap := by
  induction st with
  | nil => exact Nat.zero_le cap
  | cons e rest ih =>
    obtain ⟨b, ts, c⟩ := e
    by_cases hb : b = a
    · simp only [lookupCount, if_pos hb]
      exact h _ (List.mem_cons_self _ _)
    · simp only [lookupCount, if_neg hb]
      exact ih fun e he => h e (List.mem_cons_of_mem _ he)

theorem lookupCount_eq_zero {st : FairState}
    (h : ∀ e ∈ st, e.2.2 = 0) (a : String) : lookupCount a st = 0 := by
  induction st with
  | nil => rfl
  | cons e rest ih =>
    obtain ⟨b, ts, c⟩ := e
    by_cases hb : b = a
    · simp only [lookupCount, if_pos hb]
      exact h _ (List.mem_cons_self _ _)
    · simp only [lookupCount, if_neg hb]
      exact ih fun e he => h e (List.mem_cons_of_mem _ he)

theorem lookupRemaining_pairwise {st : FairState}
    (h : ∀ e ∈ st, e.2.1.Pairwise fun u v => recKey v ≤ recKey u) (a : String) :
    (lookupRemaining a st).Pairwise fun u v => recKey v ≤ recKey u := by
  induction st with
  | nil => exact List.Pairwise.nil
  | cons e rest ih =>
    obtain ⟨b, ts, c⟩ := e
    by_cases hb : b = a
    · simp only [lookupRemaining, if_pos hb]
      exact h _ (List.mem_cons_self _ _)
    · simp only [lookupRemaining, if_neg hb]
      exact ih fun e he => h e (List.mem_cons_of_mem _ he)

theorem countA_append (a : String) (l1 l2 : List Track) :
    countA a (l1 ++ l2) = countA a l1 + countA a l2 :=
  List.countP_append _ _ _

theorem countA_singleton (a : String) (t : Track) :
    countA a [t] = if primaryArtist t = a then 1 else 0 := by
  by_cases h : primaryArtist t = a
  · simp [countA, List.countP_cons, h]
  · simp [countA, List.countP_cons, h]

theorem fairInv_init (cap : Nat) (g : List (String × List Track))
    (hkeys : (g.map Prod.fst).Nodup)
    (hmem : ∀ e ∈ g, ∀ t ∈ e.2, primaryArtist t = e.1) :
    FairInv cap (g.map fun e => (e.1, stableSortDesc recKey e.2, 0)) [] := by
  refine ⟨?_, ?_, ?_, ?_, ?_⟩
  · intro e he
    rcases List.mem_map.mp he with ⟨e0, _, rfl⟩
    exact Nat.zero_le cap
  · intro a
    rw [lookupCount_eq_zero]
    · rfl
    · intro e he
      rcases List.mem_map.mp he with ⟨e0, _, rfl⟩
      rfl
  · intro e he t ht
    rcases List.mem_map.mp he with ⟨e0, he0, rfl⟩
    exact hmem e0 he0 t ((perm_stableSortDesc recKey e0.2).subset ht)
  · have : (g.map fun e => (e.1, stableSortDesc recKey e.2, 0)).map Prod.fst =
        g.map Prod.fst := by
      rw [List.map_map]
      rfl
    rw [this]
    exact hkeys
  · intro a
    rw [List.filter_nil, List.nil_append]
    apply lookupRemaining_pairwise
    intro e he
    rcases List.mem_map.mp he with ⟨e0, _, rfl⟩
    exact sorted_stableSortDesc recKey e0.2

theorem fairInv_step {cap : Nat} {st : FairState} {sel : List Track} {a : String}
    {t : Track} {st2 : FairState}
    (inv : FairInv cap st sel) (hpick : pickArtist cap st = some a)
    (hpop : popArtist a st = some (t, st2)) :
    FairInv cap st2 (sel ++ [t]) := by
  obtain ⟨I1, I2, I3, I4, I5⟩ := inv
  obtain ⟨pre, ts, c, post, hst, hst2, hpre⟩ := popArtist_decomp hpop
  subst hst
  subst hst2
  have hpt : primaryArtist t = a :=
    I3 (a, t :: ts, c) (by simp) t (by simp)
  have hpost : a ∉ post.map Prod.fst := by
    have I4' := I4
    rw [List.map_append, List.map_cons] at I4'
    have := (List.nodup_append.mp I4').2.1
    exact (List.nodup_cons.mp this).1
  have hcc : c < cap := by
    obtain ⟨ts', c', hmem, hc'⟩ := pickArtist_spec hpick
    rcases List.mem_append.mp hmem with hm | hm
    · exact absurd rfl (hpre _ hm)
    · rcases List.mem_cons.mp hm with hm | hm
      · have hceq : c' = c := by
          have := congrArg (fun e : String × List Track × Nat => e.2.2) hm
          simpa using this
        exact hceq ▸ hc'
      · exact absurd (List.mem_map.mpr ⟨_, hm, rfl⟩) hpost
  refine ⟨?_, ?_, ?_, ?_, ?_⟩
  · intro e he
    rcases List.mem_append.mp he with hm | hm
    · exact I1 e (List.mem_append.mpr (Or.inl hm))
    · rcases List.mem_cons.mp hm with hm | hm
      · subst hm
        exact hcc
      · exact I1 e (List.mem_append.mpr (Or.inr (List.mem_cons_of_mem _ hm)))
  · intro b
    rw [countA_append, countA_singleton]
    by_cases hb : a = b
    · subst hb
      rw [if_pos hpt]
      rw [lookupCount_append_of_ne a pre _ hpre]
      simp only [lookupCount, if_pos rfl]
      rw [I2 a, lookupCount_append_of_ne a pre _ hpre]
      simp [lookupCount]
    · rw [if_neg fun hc => hb (hpt.symm.trans hc)]
      rw [← lookupCount_congr_mid b a hb pre post (t :: ts, c) (ts, c + 1)]
      rw [I2 b]
      omega
  · intro e he x hx
    rcases List.mem_append.mp he with hm | hm
    · exact I3 e (List.mem_append.mpr (Or.inl hm)) x hx
    · rcases List.mem_cons.mp hm with hm | hm
      · subst hm
        exact I3 (a, t :: ts, c) (by simp) x (List.mem_cons_of_mem _ hx)
      · exact I3 e (List.mem_append.mpr (Or.inr (List.mem_cons_of_mem _ hm))) x hx
  · have h1 : (pre ++ (a, ts, c + 1) :: post).map Prod.fst =
        (pre ++ (a, t :: ts, c) :: post).map Prod.fst := by
      rw [List.map_append, List.map_cons, List.map_append, List.map_cons]
    rw [h1]
    exact I4
  · intro b
    by_cases hb : a = b
    · subst hb
      rw [List.filter_append, lookupRemaining_append_of_ne a pre _ hpre]
      simp only [lookupRemaining, if_pos rfl, List.filter_cons, List.filter_nil]
      rw [if_pos (by simp [hpt])]
      have h5 := I5 a
      rw [lookupRemaining_append_of_ne a pre _ hpre] at h5
      simp only [lookupRemaining, if_pos rfl] at h5
      rw [List.append_assoc, List.singleton_append]
      exact h5
    · rw [List.filter_append]
      simp only [List.filter_cons, List.filter_nil]
      rw [if_neg (by simp only [decide_eq_true_eq]; intro hc; exact hb (hpt.symm.trans hc))]
      rw [List.append_nil]
      rw [← lookupRemaining_congr_mid b a hb pre post (t :: ts, c) (ts, c + 1)]
      exact I5 b

theorem fairLoop_sound {cap M : Nat} :
    ∀ (fuel : Nat) (st : FairState) (sel res : List Track),
    FairInv cap st sel → fairLoop cap M fuel st sel = some res →
    (∀ a, countA a res ≤ cap) ∧ res.length ≤ max sel.length M ∧
    (∀ a, (res.filter fun x => decide (primaryArtist x = a)).Pairwise
      fun u v => recKey v ≤ recKey u) := by
  intro fuel
  induction fuel with
  | zero =>
    intro st sel res _ h
    exact absurd h (by simp [fairLoop])
  | succ n ih =>
    intro st sel res inv h
    have hexit : sel = res →
        (∀ a, countA a res ≤ cap) ∧ res.length ≤ max sel.length M ∧
        (∀ a, (res.filter fun x => decide (primaryArtist x = a)).Pairwise
          fun u v => recKey v ≤ recKey u) := by
      rintro rfl
      refine ⟨?_, le_max_left _ _, ?_⟩
      · intro a
        rw [inv.2.1 a]
        exact lookupCount_le_cap inv.1 a
      · intro a
        exact (List.pairwise_append.mp (inv.2.2.2.2 a)).1
    rw [fairLoop] at h
    by_cases hM : M ≤ sel.length
    · rw [if_pos hM] at h
      exact hexit (Option.some.injEq .. ▸ h)
    · rw [if_neg hM] at h
      split at h
      · exact hexit (Option.some.injEq .. ▸ h)
      · rename_i a hpick
        split at h
        · rename_i t st2 hpop
          obtain ⟨r1, r2, r3⟩ := ih st2 (sel ++ [t]) res (fairInv_step inv hpick hpop) h
          refine ⟨r1, ?_, r3⟩
          rw [List.length_append, List.length_singleton] at r2
          have hlt : sel.length + 1 ≤ M := Nat.succ_le_of_lt (lt_of_not_le hM)
          rw [max_eq_right hlt] at r2
          exact le_trans r2 (le_max_right _ _)
        · exact ih st sel res inv h

theorem upsertGroup_fst_mem (a b : String) (t : Track)
    (g : List (String × List Track)) :
    b ∈ (upsertGroup a t g).map Prod.fst ↔ b ∈ g.map Prod.fst ∨ b = a := by
  induction g with
  | nil => simp [upsertGroup]
  | cons e rest ih =>
    obtain ⟨k, ts⟩ := e
    by_cases hk : k = a
    · subst hk
      simp only [upsertGroup, eq_self_iff_true, if_true, List.map_cons, List.mem_cons]
      tauto
    · simp only [upsertGroup, if_neg hk, List.map_cons, List.mem_cons, ih]
      tauto

theorem upsertGroup_nodup (a : String) (t : Track)
    (g : List (String × List Track)) (h : (g.map Prod.fst).Nodup) :
    ((upsertGroup a t g).map Prod.fst).Nodup := by
  induction g with
  | nil => simp [upsertGroup]
  | cons e rest ih =>
    obtain ⟨k, ts⟩ := e
    rw [List.map_cons, List.nodup_cons] at h
    by_cases hk : k = a
    · subst hk
      simp only [upsertGroup, eq_self_iff_true, if_true, List.map_cons, List.nodup_cons]
      exact h
    · simp only [upsertGroup, if_neg hk, List.map_cons, List.nodup_cons]
      refine ⟨?_, ih h.2⟩
      rw [upsertGroup_fst_mem]
      rintro (hm | hm)
      · exact h.1 hm
      · exact hk hm

theorem upsertGroup_members {a : String} {t : Track}
    {g : List (String × List Track)}
    (hg : ∀ e ∈ g, ∀ x ∈ e.2, primaryArtist x = e.1)
    (ht : primaryArtist t = a) :
    ∀ e ∈ upsertGroup a t g, ∀ x ∈ e.2, primaryArtist x = e.1 := by
  induction g with
  | nil =>
    intro e he x hx
    simp only [upsertGroup, List.mem_singleton] at he
    subst he
    simp only [List.mem_singleton] at hx
    subst hx
    exact ht
  | cons e0 rest ih =>
    obtain ⟨k, ts⟩ := e0
    by_cases hk : k = a
    · subst hk
      intro e he x hx
      simp only [upsertGroup, eq_self_iff_true, if_true, List.mem_cons] at he
      rcases he with he | he
      · subst he
        rcases List.mem_append.mp hx with hx | hx
        · exact hg (k, ts) (List.mem_cons_self _ _) x hx
        · rw [List.mem_singleton] at hx
          subst hx
          exact ht
      · exact hg e (List.mem_cons_of_mem _ he) x hx
    · intro e he x hx
      simp only [upsertGroup, if_neg hk, List.mem_cons] at he
      rcases he with he | he
      · subst he
        exact hg (k, ts) (List.mem_cons_self _ _) x hx
      · exact ih (fun e2 he2 => hg e2 (List.mem_cons_of_mem _ he2)) e he x hx

theorem groupAux_members :
    ∀ (l : List Track) (g : List (String × List Track)),
    (∀ e ∈ g, ∀ x ∈ e.2, primaryArtist x = e.1) →
    ∀ e ∈ l.foldl (fun g t => upsertGroup (primaryArtist t) t g) g,
      ∀ x ∈ e.2, primaryArtist x = e.1 := by
  intro l
  induction l with
  | nil => intro g hg; exact hg
  | cons t rest ih =>
    intro g hg
    rw [List.foldl_cons]
    exact ih _ (upsertGroup_members hg rfl)

theorem groupAux_nodup :
    ∀ (l : List Track) (g : List (String × List Track)),
    (g.map Prod.fst).Nodup →
    ((l.foldl (fun g t => upsertGroup (primaryArtist t) t g) g).map Prod.fst).Nodup := by
  intro l
  induction l with
  | nil => intro g hg; exact hg
  | cons t rest ih =>
    intro g hg
    rw [List.foldl_cons]
    exact ih _ (upsertGroup_nodup _ _ _ hg)

theorem groupAux_keys_mem :
    ∀ (l : List Track) (g : List (String × List Track)) (b : String),
    (b ∈ (l.foldl (fun g t => upsertGroup (primaryArtist t) t g) g).map Prod.fst ↔
      b ∈ g.map Prod.fst ∨ b ∈ l.map primaryArtist) := by
  intro l
  induction l with
  | nil => intro g b; simp
  | cons t rest ih =>
    intro g b
    rw [List.foldl_cons, ih, upsertGroup_fst_mem, List.map_cons, List.mem_cons]
    tauto

theorem groupByArtist_members (l : List Track) :
    ∀ e ∈ groupByArtist l, ∀ x ∈ e.2, primaryArtist x = e.1 :=
  groupAux_members l [] (by simp)

theorem groupByArtist_nodup (l : List Track) :
    ((groupByArtist l).map Prod.fst).Nodup :=
  groupAux_nodup l [] (by simp)

theorem groupByArtist_length (l : List Track) :
    (groupByArtist l).length = (l.map primaryArtist).toFinset.card := by
  have hmem : ∀ b, b ∈ (groupByArtist l).map Prod.fst ↔ b ∈ l.map primaryArtist := by
    intro b
    have := groupAux_keys_mem l [] b
    simpa using this
  have hfin : ((groupByArtist l).map Prod.fst).toFinset = (l.map primaryArtist).toFinset := by
    ext b
    simp only [List.mem_toFinset]
    exact hmem b
  calc (groupByArtist l).length
      = ((groupByArtist l).map Prod.fst).length := (List.length_map _ _).symm
    _ = ((groupByArtist l).map Prod.fst).toFinset.card :=
        (List.toFinset_card_of_nodup (groupByArtist_nodup l)).symm
    _ = (l.map primaryArtist).toFinset.card := by rw [hfin]

/-- C1: the claim asserts the allocator always reaches a terminal state and
returns.  It does not: on a single candidate with `max_count = 2` the unique
artist's pool is exhausted after one round while its count 1 is still under
the cap 2, so the artist remains "eligible", is re-selected forever, and the
`while` loop never exits — for every fuel bound the loop is still running. -/
theorem C1_fairness_diverges :
    ∀ fuel : Nat, apply_fairness_constraints fuel [c1Track] 2 = none := by
  have stuck : ∀ f : Nat, fairLoop 2 2 f [("a", [], 1)] [c1Track] = none := by
    intro f
    induction f with
    | zero => rfl
    | succ n ih => exact ih
  intro fuel
  cases fuel with
  | zero => rfl
  | succ n => exact stuck n

/-- C2: whenever the allocator does return a list, no artist contributes more
than `max(1, M // A)` items (`A` = number of distinct primary artists) and
the result has at most `M` items. -/
theorem C2_fairness_caps (tracks : List Track) (M fuel : Nat) (res : List Track)
    (hne : tracks ≠ [])
    (h : apply_fairness_constraints fuel tracks M = some res) :
    res.length ≤ M ∧
    ∀ a : String, countA a res ≤ max 1 (M / (tracks.map primaryArtist).toFinset.card) := by
  have hlen0 : (groupByArtist tracks).length ≠ 0 := by
    rw [groupByArtist_length]
    cases tracks with
    | nil => exact absurd rfl hne
    | cons x xs =>
      have : primaryArtist x ∈ ((x :: xs).map primaryArtist).toFinset := by
        rw [List.mem_toFinset, List.map_cons]
        exact List.mem_cons_self _ _
      exact Finset.card_ne_zero_of_mem this
  simp only [apply_fairness_constraints] at h
  rw [if_neg hlen0] at h
  obtain ⟨r1, r2, r3⟩ := fairLoop_sound fuel _ [] res
    (fairInv_init _ _ (groupByArtist_nodup tracks) (groupByArtist_members tracks)) h
  constructor
  · simpa using r2
  · intro a
    rw [← groupByArtist_length]
    exact r1 a

/-- C2 witness: two candidates by two distinct artists at `max_count = 2`
are both returned, and the bounds hold. -/
theorem C2_witness :
    ([c3t1, ({ artists := [some "b"] } : Track)].length ≤ 2) ∧
    ∀ a : String, countA a [c3t1, ({ artists := [some "b"] } : Track)] ≤
      max 1 (2 / ([c3t1, ({ artists := [some "b"] } : Track)].map primaryArtist).toFinset.card) :=
  C2_fairness_caps [c3t1, ({ artists := [some "b"] } : Track)] 2 5
    [c3t1, ({ artists := [some "b"] } : Track)] (by simp) (by rfl)

/-- C3 counterexample: the allocator sorts each artist group by
`recommendation_score`, not `debiased_score`.  Two same-artist candidates
whose `debiased_score` order opposes their `recommendation_score` order come
back in increasing `debiased_score` order, refuting the claim as stated. -/
theorem C3_counterexample :
    apply_fairness_constraints 8 [c3t1, c3t2] 2 = some [c3t1, c3t2] ∧
    ¬ ∀ a : String,
      (([c3t1, c3t2].filter fun x => decide (primaryArtist x = a)).map debiasedKey).Pairwise
        (fun u v => v ≤ u) := by
  constructor
  · rfl
  · intro hall
    have h := hall "a"
    have : ¬ ((1 : ℚ) ≤ 0) := by norm_num
    exact this (by simpa [c3t1, c3t2, primaryArtist, debiasedKey] using h)

/-- C3 amended: whenever the allocator returns, each artist's items appear in
non-increasing order of `recommendation_score` (the key the code actually
sorts the artist groups by), rather than of `debiased_score`. -/
theorem C3_amended (tracks : List Track) (M fuel : Nat) (res : List Track)
    (h : apply_fairness_constraints fuel tracks M = some res) :
    ∀ a : String, (res.filter fun x => decide (primaryArtist x = a)).Pairwise
      fun u v => recKey v ≤ recKey u := by
  by_cases hg : (groupByArtist tracks).length = 0
  · simp only [apply_fairness_constraints] at h
    rw [if_pos hg] at h
    cases tracks with
    | nil =>
      have : res = [] := by
        rw [List.take_nil] at h
        exact (Option.some.injEq .. ▸ h).symm
      subst this
      intro a
      simp
    | cons x xs =>
      exfalso
      have hmem : primaryArtist x ∈
          ((x :: xs).foldl (fun g t => upsertGroup (primaryArtist t) t g) []).map Prod.fst := by
        rw [groupAux_keys_mem]
        right
        rw [List.map_cons]
        exact List.mem_cons_self _ _
      rw [List.length_eq_zero] at hg
      have hg2 : ((x :: xs).foldl (fun g t => upsertGroup (primaryArtist t) t g) []) =
          ([] : List (String × List Track)) := hg
      rw [hg2] at hmem
      exact absurd hmem (by simp)
  · simp only [apply_fairness_constraints] at h
    rw [if_neg hg] at h
    exact (fairLoop_sound fuel _ [] res
      (fairInv_init _ _ (groupByArtist_nodup tracks) (groupByArtist_members tracks)) h).2.2

/-- C3 amended witness: the counterexample run, checked against the amended
per-artist `recommendation_score` ordering. -/
theorem C3_amended_witness :
    ([c3t1, c3t2].filter fun x => decide (primaryArtist x = "a")).Pairwise
      (fun u v => recKey v ≤ recKey u) :=
  C3_amended [c3t1, c3t2] 2 8 [c3t1, c3t2] rfl "a"

/-- C7: the claim says `positive_feedback_rate` is the fraction of windowed
ratings strictly above 0.7 and `negative_feedback_rate` the fraction strictly
below 0.3.  The code instead takes `np.mean` of a list holding a constant 1
per qualifying rating, which is 1 whenever any rating qualifies (NaN when
none): on the window with ratings 0.8 and 0.1 both code rates are 1 while
both claimed fractions are 1/2. -/
theorem C7_satisfaction_rates_bug :
    positive_feedback_rate [4/5, 1/10] = some 1 ∧
    claimedPositiveRate [4/5, 1/10] = 1/2 ∧
    negative_feedback_rate [4/5, 1/10] = some 1 ∧
    claimedNegativeRate [4/5, 1/10] = 1/2 ∧
    ¬ positive_feedback_rate [4/5, 1/10] = some (claimedPositiveRate [4/5, 1/10]) := by
  refine ⟨?_, ?_, ?_, ?_, ?_⟩ <;>
    norm_num [positive_feedback_rate, negative_feedback_rate, claimedPositiveRate,
      claimedNegativeRate, npMean, List.filter, List.countP, List.countP.go]

/-- C9 counterexample: for an item with `popularity = 100` whose base score is
0 (the documented default of a missing `recommendation_score`), the penalty is
the full strength but `popularity_adjusted_score = 0` is not strictly below
the base score, refuting the claim as stated. -/
theorem C9_counterexample :
    (penaltyTrack (3/10) { popularity := some 100 }).popularity_penalty = some (3/10) ∧
    ¬ (penaltyTrack (3/10) { popularity := some 100 }).popularity_adjusted_score.getD 0 <
        ({ popularity := some 100 : Track }).recommendation_score.getD 0 := by
  constructor
  · norm_num [penaltyTrack]
  · norm_num [penaltyTrack]

/-- C9 amended: for every item with `popularity = 100`, every strength `s > 0`
and a positive base score, `apply_popularity_penalty` applies the third tier,
the penalty equals `s·(1 − 0.8)·5 = s`, and the adjusted score is strictly
below the base score. -/
theorem C9_amended (s : ℚ) (t : Track) (hpop : t.popularity = some 100)
    (hs : 0 < s) (hbase : 0 < t.recommendation_score.getD 0) :
    apply_popularity_penalty s [t] = [penaltyTrack s t] ∧
    (penaltyTrack s t).popularity_penalty = some s ∧
    (penaltyTrack s t).popularity_adjusted_score = some ((t.recommendation_score.getD 0) * (1 - s)) ∧
    (penaltyTrack s t).popularity_adjusted_score.getD 0 < t.recommendation_score.getD 0 := by
  have hp : (t.popularity.getD 50) / 100 = 1 := by rw [hpop]; norm_num
  have hpen : (penaltyTrack s t).popularity_penalty = some s := by
    simp only [penaltyTrack, hp]
    norm_num
    ring
  have hadj : (penaltyTrack s t).popularity_adjusted_score =
      some ((t.recommendation_score.getD 0) * (1 - s)) := by
    simp only [penaltyTrack, hp]
    norm_num
    exact Or.inl (by ring)
  refine ⟨rfl, hpen, hadj, ?_⟩
  rw [hadj]
  simp only [Option.getD_some]
  nlinarith [mul_pos hbase hs]

/-- C9 witness: the amended theorem applied at strength 0.3 and a concrete
item with popularity 100 and base score 1. -/
theorem C9_witness :
    apply_popularity_penalty (3/10) [{ popularity := some 100, recommendation_score := some 1 }] =
      [penaltyTrack (3/10) { popularity := some 100, recommendation_score := some 1 }] ∧
    (penaltyTrack (3/10) { popularity := some 100, recommendation_score := some 1 }).popularity_penalty = some (3/10) ∧
    (penaltyTrack (3/10) { popularity := some 100, recommendation_score := some 1 }).popularity_adjusted_score =
      some ((({ popularity := some 100, recommendation_score := some 1 } : Track).recommendation_score.getD 0) * (1 - 3/10)) ∧
    (penaltyTrack (3/10) { popularity := some 100, recommendation_score := some 1 }).popularity_adjusted_score.getD 0 <
      ({ popularity := some 100, recommendation_score := some 1 } : Track).recommendation_score.getD 0 :=
  C9_amended (3/10) { popularity := some 100, recommendation_score := some 1 }
    rfl (by norm_num) (by decide)

/-- C5: the adaptive exploration-rate rule in full — empty batch is a no-op;
the rate stays inside [0.1, 0.5] whenever it starts there; for any batch with
a non-empty exploration-ratings list of mean m: if m > 0.7 the rate becomes
min(0.5, rate + 0.05), if m < 0.3 it becomes max(0.1, rate − 0.05), and if
m ∈ [0.3, 0.7] the model is unchanged; from rate 0.3, one batch with
exploration-mean 0.9 gives exactly 0.35, and five such batches in a row give
exactly 0.5. -/
theorem C5_adaptive_rate (fb : List Feedback)
    (hne : explorationRatings fb ≠ [])
    (hmean : (explorationRatings fb).sum / ((explorationRatings fb).length : ℚ) = 9/10) :
    (∀ m, update_exploration_rate m [] = m) ∧
    (∀ (m : ExplorationExploitationModel) (fb2 : List Feedback),
      1/10 ≤ m.exploration_rate → m.exploration_rate ≤ 1/2 →
      1/10 ≤ (update_exploration_rate m fb2).exploration_rate ∧
      (update_exploration_rate m fb2).exploration_rate ≤ 1/2) ∧
    (∀ (m : ExplorationExploitationModel) (fb2 : List Feedback),
      explorationRatings fb2 ≠ [] →
      (explorationRatings fb2).sum / ((explorationRatings fb2).length : ℚ) > 7/10 →
      update_exploration_rate m fb2 =
        { m with exploration_rate := min (1/2) (m.exploration_rate + 1/20) }) ∧
    (∀ (m : ExplorationExploitationModel) (fb2 : List Feedback),
      explorationRatings fb2 ≠ [] →
      (explorationRatings fb2).sum / ((explorationRatings fb2).length : ℚ) < 3/10 →
      update_exploration_rate m fb2 =
        { m with exploration_rate := max (1/10) (m.exploration_rate - 1/20) }) ∧
    (∀ (m : ExplorationExploitationModel) (fb2 : List Feedback),
      3/10 ≤ (explorationRatings fb2).sum / ((explorationRatings fb2).length : ℚ) →
      (explorationRatings fb2).sum / ((explorationRatings fb2).length : ℚ) ≤ 7/10 →
      update_exploration_rate m fb2 = m) ∧
    (update_exploration_rate { exploration_rate := 3/10, exploration_history := [] } fb =
      { exploration_rate := 7/20, exploration_history := [] }) ∧
    (update_exploration_rate (update_exploration_rate (update_exploration_rate
      (update_exploration_rate (update_exploration_rate
        { exploration_rate := 3/10, exploration_history := [] } fb) fb) fb) fb) fb =
      { exploration_rate := 1/2, exploration_history := [] }) := by
  have haux : ∀ fb2 : List Feedback, explorationRatings fb2 ≠ [] →
      fb2.isEmpty = false ∧ (explorationRatings fb2).isEmpty = false := by
    intro fb2 hne2
    refine ⟨?_, ?_⟩
    · cases fb2 with
      | nil => exact absurd rfl hne2
      | cons f l => rfl
    · cases h : explorationRatings fb2 with
      | nil => exact absurd h hne2
      | cons r l => rfl
  have hincr : ∀ (m : ExplorationExploitationModel) (fb2 : List Feedback),
      explorationRatings fb2 ≠ [] →
      (explorationRatings fb2).sum / ((explorationRatings fb2).length : ℚ) > 7/10 →
      update_exploration_rate m fb2 =
        { m with exploration_rate := min (1/2) (m.exploration_rate + 1/20) } := by
    intro m fb2 hne2 hgt
    obtain ⟨hA, hB⟩ := haux fb2 hne2
    unfold update_exploration_rate
    rw [if_neg (by simp [hA]), if_neg (by simp [hB]), if_pos hgt]
  have hdecr : ∀ (m : ExplorationExploitationModel) (fb2 : List Feedback),
      explorationRatings fb2 ≠ [] →
      (explorationRatings fb2).sum / ((explorationRatings fb2).length : ℚ) < 3/10 →
      update_exploration_rate m fb2 =
        { m with exploration_rate := max (1/10) (m.exploration_rate - 1/20) } := by
    intro m fb2 hne2 hlt
    obtain ⟨hA, hB⟩ := haux fb2 hne2
    unfold update_exploration_rate
    rw [if_neg (by simp [hA]), if_neg (by simp [hB]),
      if_neg (not_lt.mpr (le_of_lt (lt_trans hlt (by norm_num)))), if_pos hlt]
  have hstep : ∀ m : ExplorationExploitationModel, update_exploration_rate m fb =
      { m with exploration_rate := min (1/2) (m.exploration_rate + 1/20) } :=
    fun m => hincr m fb hne (by rw [hmean]; norm_num)
  refine ⟨fun m => rfl, ?_, hincr, hdecr, ?_, ?_, ?_⟩
  · intro m fb2 h1 h2
    simp only [update_exploration_rate]
    split_ifs
    · exact ⟨h1, h2⟩
    · exact ⟨h1, h2⟩
    · exact ⟨le_min (by norm_num) (by linarith), min_le_left _ _⟩
    · exact ⟨le_max_left _ _, max_le (by norm_num) (by linarith)⟩
    · exact ⟨h1, h2⟩
  · intro m fb2 h1 h2
    simp only [update_exploration_rate]
    split_ifs with g1 g2 g3 g4
    · rfl
    · rfl
    · exact absurd g3 (by rw [not_lt]; exact h2)
    · exact absurd g4 (by rw [not_lt]; exact h1)
    · rfl
  · rw [hstep]
    congr 1
    norm_num [min_def]
  · have e : ∀ r : ℚ, update_exploration_rate
        { exploration_rate := r, exploration_history := [] } fb =
        { exploration_rate := min (1/2) (r + 1/20), exploration_history := [] } :=
      fun r => hstep { exploration_rate := r, exploration_history := [] }
    rw [e, show min ((1:ℚ)/2) (3/10 + 1/20) = 7/20 by norm_num [min_def],
      e, show min ((1:ℚ)/2) (7/20 + 1/20) = 2/5 by norm_num [min_def],
      e, show min ((1:ℚ)/2) (2/5 + 1/20) = 9/20 by norm_num [min_def],
      e, show min ((1:ℚ)/2) (9/20 + 1/20) = 1/2 by norm_num [min_def],
      e, show min ((1:ℚ)/2) (1/2 + 1/20) = 1/2 by norm_num [min_def]]

/-- C5 witness: one concrete exploration-flagged batch with rating 0.9 raises
the rate 0.3 to exactly 0.35 (increase branch), and one with rating 0.1
lowers it to exactly 0.25 (decrease branch). -/
theorem C5_witness :
    (update_exploration_rate { exploration_rate := 3/10, exploration_history := [] }
      [{ rating := some (9/10), is_exploration := true }] =
      { exploration_rate := 7/20, exploration_history := [] }) ∧
    (update_exploration_rate { exploration_rate := 3/10, exploration_history := [] }
      [{ rating := some (1/10), is_exploration := true }] =
      { exploration_rate := 1/4, exploration_history := [] }) := by
  have h := C5_adaptive_rate [{ rating := some (9/10), is_exploration := true }]
    (by norm_num [explorationRatings, List.filter])
    (by norm_num [explorationRatings, List.filter])
  refine ⟨h.2.2.2.2.2.1, ?_⟩
  rw [h.2.2.2.1 { exploration_rate := 3/10, exploration_history := [] }
    [{ rating := some (1/10), is_exploration := true }]
    (by norm_num [explorationRatings, List.filter])
    (by norm_num [explorationRatings, List.filter])]
  congr 1
  norm_num [max_def]

/-- C8: every stage of the pipeline returns an empty list (for the fairness
allocator: the exception fallback `tracks[:max_recommendations]`, which is
empty) on an empty candidate list, for every parameter value. -/
theorem C8_empty_input :
    (∀ powA : ℚ → ℚ, apply_popularity_normalization powA [] = []) ∧
    (∀ s : ℚ, apply_popularity_penalty s [] = []) ∧
    apply_popularity_aware_ranking [] = [] ∧
    apply_diversity_boost [] = [] ∧
    apply_genre_diversity [] = [] ∧
    apply_temporal_diversity [] = [] ∧
    (∀ user_history, apply_novelty_boost user_history [] = []) ∧
    apply_artist_novelty [] = [] ∧
    (∀ fuel M : Nat, apply_fairness_constraints fuel [] M = some []) ∧
    (∀ q : List (String × ℚ), apply_representation_quota q [] = []) ∧
    (∀ (powA : ℚ → ℚ) (user_history : List String),
      apply_full_debiasing powA user_history [] = []) := by
  refine ⟨fun _ => rfl, fun _ => rfl, rfl, rfl, rfl, rfl, fun _ => rfl, rfl, ?_, ?_, ?_⟩
  · intro fuel M
    simp [apply_fairness_constraints, groupByArtist, List.take_nil]
  · intro q
    unfold apply_representation_quota
    simp only [List.filter_nil]
    apply foldl_fixed_point
    intro a b
    have hcat : (if b.1 = "mainstream" then ([] : List Track)
        else if b.1 = "indie" then [] else if b.1 = "vintage" then [] else []) = [] := by
      split_ifs <;> rfl
    rw [hcat]
    simp [stableSortDesc]
  · intro powA user_history
    rfl

/-- C4: the score combiner writes
`debiased_score = 0.3·popularity_adjusted + 0.3·diversity_adjusted +
0.4·novelty_adjusted` (each component falling back to the base score) on
every item, and returns a permutation of the scored input that is sorted
descending by `debiased_score` and stable (items at any fixed score value
keep their relative input order). -/
theorem C4_score_combiner (tracks : List Track) :
    (scoreCombiner tracks).Perm (tracks.map setDebiased) ∧
    (∀ t ∈ scoreCombiner tracks, t.debiased_score = some (combinerScore t)) ∧
    (scoreCombiner tracks).Pairwise (fun a b => debiasedKey b ≤ debiasedKey a) ∧
    (∀ c : ℚ, (scoreCombiner tracks).filter (fun t => decide (debiasedKey t = c)) =
      (tracks.map setDebiased).filter (fun t => decide (debiasedKey t = c))) := by
  refine ⟨perm_stableSortDesc _ _, ?_, sorted_stableSortDesc _ _,
    fun c => filter_stableSortDesc _ _ _⟩
  intro t ht
  have hmem := (perm_stableSortDesc debiasedKey (tracks.map setDebiased)).mem_iff.mp ht
  rcases List.mem_map.mp hmem with ⟨u, hu, rfl⟩
  rfl

/-- C4 witness: the combiner applied to a concrete singleton list writes the
fused score on its item. -/
theorem C4_witness :
    (setDebiased { recommendation_score := some 1 }).debiased_score =
      some (combinerScore (setDebiased { recommendation_score := some 1 })) :=
  (C4_score_combiner [{ recommendation_score := some 1 }]).2.1
    (setDebiased { recommendation_score := some 1 }) (List.mem_singleton.mpr rfl)

/-- C6: the selector takes `n_explore = floor(N·rate)` and
`n_exploit = N − n_explore`; the output is, up to order, the top
`min(n_exploit, |pool|)` exploitation candidates by recommendation score
together with the top `min(n_explore, |pool|)` exploration candidates by
`0.7·novelty + 0.3·(1 − popularity/100)`; an exploration pool smaller than
requested is returned whole; for `N = 10` and rate `0.3` the split is
exactly 3 and 7. -/
theorem C6_selector (rate : ℚ) (exploit explore : List Track) (N : Nat)
    (h0 : 0 ≤ rate) (h1 : rate ≤ 1) :
    truncQ ((N : ℚ) * rate) = ⌊(N : ℚ) * rate⌋ ∧
    (truncQ ((N : ℚ) * rate)).toNat + (N - (truncQ ((N : ℚ) * rate)).toNat) = N ∧
    (select_recommendations rate exploit explore N).length =
      min (N - (truncQ ((N : ℚ) * rate)).toNat) exploit.length +
      min (truncQ ((N : ℚ) * rate)).toNat explore.length ∧
    (∀ t ∈ select_recommendations rate exploit explore N, t ∈ exploit ∨ t ∈ explore) ∧
    (select_recommendations rate exploit explore N).Perm
      ((stableSortDesc recKey exploit).take (N - (truncQ ((N : ℚ) * rate)).toNat) ++
        (stableSortDesc diversityKey explore).take (truncQ ((N : ℚ) * rate)).toNat) ∧
    (explore.length ≤ (truncQ ((N : ℚ) * rate)).toNat →
      select_recommendations rate exploit explore N =
        (stableSortDesc recKey exploit).take (N - (truncQ ((N : ℚ) * rate)).toNat) ++ explore) ∧
    (rate = 3/10 → N = 10 →
      (truncQ ((N : ℚ) * rate)).toNat = 3 ∧ N - (truncQ ((N : ℚ) * rate)).toNat = 7) := by
  have htr : truncQ ((N : ℚ) * rate) = ⌊(N : ℚ) * rate⌋ :=
    if_pos (mul_nonneg (Nat.cast_nonneg N) h0)
  have hle : (truncQ ((N : ℚ) * rate)).toNat ≤ N := by
    rw [htr]
    rw [Int.toNat_le]
    calc ⌊(N : ℚ) * rate⌋ ≤ ⌊(N : ℚ)⌋ :=
          Int.floor_le_floor (mul_le_of_le_one_right (Nat.cast_nonneg N) h1)
      _ = (N : ℤ) := Int.floor_natCast N
  refine ⟨htr, Nat.add_sub_cancel' hle, ?_, ?_, ?_, ?_, ?_⟩
  · unfold select_recommendations select_exploration_candidates
    rw [List.length_append, List.length_take, length_stableSortDesc]
    by_cases h : explore.length ≤ (truncQ ((N : ℚ) * rate)).toNat
    · rw [if_pos h, Nat.min_eq_right h]
    · rw [if_neg h, List.length_take, length_stableSortDesc]
  · intro t ht
    simp only [select_recommendations, select_exploration_candidates] at ht
    rcases List.mem_append.mp ht with ht | ht
    · exact Or.inl ((perm_stableSortDesc recKey exploit).subset (List.take_subset _ _ ht))
    · by_cases h : explore.length ≤ (truncQ ((N : ℚ) * rate)).toNat
      · rw [if_pos h] at ht
        exact Or.inr ht
      · rw [if_neg h] at ht
        exact Or.inr
          ((perm_stableSortDesc diversityKey explore).subset (List.take_subset _ _ ht))
  · simp only [select_recommendations, select_exploration_candidates]
    by_cases h : explore.length ≤ (truncQ ((N : ℚ) * rate)).toNat
    · rw [if_pos h]
      refine List.Perm.append_left _ ?_
      rw [List.take_of_length_le (by rw [length_stableSortDesc]; exact h)]
      exact (perm_stableSortDesc diversityKey explore).symm
    · rw [if_neg h]
  · intro h
    simp only [select_recommendations, select_exploration_candidates]
    rw [if_pos h]
  · intro hr hN
    subst hr
    subst hN
    have h3 : truncQ (((10 : Nat) : ℚ) * (3/10)) = 3 := by norm_num [truncQ]
    rw [h3]
    exact ⟨rfl, rfl⟩

/-- C6 witness: the selector at `N = 10`, rate `0.3` allocates exactly 3
exploration and 7 exploitation slots. -/
theorem C6_witness :
    (truncQ (((10 : Nat) : ℚ) * (3/10))).toNat = 3 ∧
    10 - (truncQ (((10 : Nat) : ℚ) * (3/10))).toNat = 7 :=
  (C6_selector (3/10) [] [] 10 (by norm_num) (by norm_num)).2.2.2.2.2.2 rfl rfl

/-- C10: a non-empty feedback batch in which no event is flagged
`is_exploration` leaves the whole selector state unchanged, exactly like an
empty batch. -/
theorem C10_no_exploration_noop (m : ExplorationExploitationModel)
    (fb : List Feedback) (hall : ∀ f ∈ fb, f.is_exploration = false) :
    update_exploration_rate m fb = m := by
  have hes : explorationRatings fb = [] := by
    unfold explorationRatings
    rw [List.filter_eq_nil_iff.mpr]
    · rfl
    · intro f hf
      simp [hall f hf]
  cases fb with
  | nil => rfl
  | cons f l =>
    simp [update_exploration_rate, hes]

/-- C10 witness: a concrete singleton batch with `is_exploration = false` is a
no-op on the default-initialized selector. -/
theorem C10_witness :
    update_exploration_rate { } [{ rating := some 1, is_exploration := false }] = { } :=
  C10_no_exploration_noop { } [{ rating := some 1, is_exploration := false }]
    (by decide)

end MusicRec
